import Mathlib

/-!
Shallow embedding of the HackatonBackend retrieval pipeline:
the keyword scorer (src/utils/keywordSearch.ts with src/config/keywords.ts),
the hybrid reranker (src/utils/reranker.ts), the similarity cache
(src/services/cacheService.ts) and the ghost-prompt query refiner
(src/utils/ghostPrompt.ts).

Modelling conventions:
* JavaScript numbers are modelled as exact rationals for the scoring
  pipeline, and as real numbers for the cosine-similarity cache (whose code
  uses Math.sqrt).  Math.log10 is kept abstract as a parameter lg of the
  scorer, constrained where needed by the facts actually used (log10 n is
  nonnegative for n at least 1).
* JavaScript strings are Lean strings; toLowerCase is modelled on the ASCII
  and Latin-1 letter ranges, and a regex word character is an ASCII letter,
  digit or underscore, exactly as in an ECMAScript regex without the u flag.
* The whitespace class used by split models the common whitespace
  characters (space, tab, newline, carriage return).
-/

attribute [local semireducible] Rat.add Rat.mul Rat.inv Rat.sub Rat.ofScientific

/-- Word character of an ECMAScript regex: ASCII letter, digit or underscore. -/
def isWordChar (c : Char) : Bool :=
  c.isAlphanum || c == '_'

/-- Characters kept by the cleanup replace(/[^\wÀ-ɏ]/g, ""):
word characters plus the accented range U+00C0 to U+024F. -/
def isKeptChar (c : Char) : Bool :=
  isWordChar c || (0xC0 ≤ c.toNat && c.toNat ≤ 0x24F)

/-- JavaScript toLowerCase, modelled on ASCII and Latin-1 uppercase letters. -/
def jsLowerChar (c : Char) : Char :=
  if 'A' ≤ c && c ≤ 'Z' then Char.ofNat (c.toNat + 32)
  else if 0xC0 ≤ c.toNat && c.toNat ≤ 0xDE && c.toNat != 0xD7 then Char.ofNat (c.toNat + 32)
  else c

/-- Lowercase an entire string. -/
def lowerStr (s : String) : String :=
  String.mk (s.toList.map jsLowerChar)

/-- Whitespace for the regex class backslash-s (common cases). -/
def isWs (c : Char) : Bool :=
  c == ' ' || c == '\t' || c == '\n' || c == '\r'

/-- Worker for splitWs.  The first argument is the token being accumulated
(in reverse), or none while scanning a whitespace run.  Reproduces the
JavaScript behaviour of split(/\s+/): an empty leading token when the string
starts with whitespace, an empty trailing token when it ends with one, and a
single empty token for the empty string. -/
def splitWsGo : Option (List Char) → List Char → List (List Char)
  | none, [] => [[]]
  | some cur, [] => [cur.reverse]
  | none, c :: cs =>
    if isWs c then splitWsGo none cs else splitWsGo (some [c]) cs
  | some cur, c :: cs =>
    if isWs c then cur.reverse :: splitWsGo none cs else splitWsGo (some (c :: cur)) cs

/-- JavaScript split(/\s+/) on a list of characters. -/
def splitWs (cs : List Char) : List (List Char) :=
  splitWsGo (some []) cs

/-- Substring test: does the needle occur contiguously inside the haystack?
Models JavaScript String.prototype.includes. -/
def hasSubList : List Char → List Char → Bool
  | needle, [] => needle.isEmpty
  | needle, c :: cs => needle.isPrefixOf (c :: cs) || hasSubList needle cs

/-- String.prototype.includes(needle) on haystack. -/
def strIncludes (haystack needle : String) : Bool :=
  hasSubList needle.toList haystack.toList

/-- Is the character at index i a word character (false out of range)? -/
def wordCharAt (s : List Char) (i : ℕ) : Bool :=
  match s[i]? with
  | some c => isWordChar c
  | none => false

/-- ECMAScript word boundary at position i (between index i-1 and index i):
exactly one side is a word character. -/
def boundaryAt (s : List Char) (i : ℕ) : Bool :=
  (if i == 0 then false else wordCharAt s (i - 1)) != wordCharAt s i

/-- The literal kw occurs at position i of s. -/
def literalMatchAt (kw s : List Char) (i : ℕ) : Bool :=
  ((s.drop i).take kw.length) == kw

/-- Match of the regex backslash-b kw backslash-b at position i of s. -/
def wholeWordMatchAt (kw s : List Char) (i : ℕ) : Bool :=
  literalMatchAt kw s i && boundaryAt s i && boundaryAt s (i + kw.length)

/-- Global regex scan: count non-overlapping whole-word matches, advancing
past each match (by at least one position, as a regex engine advances
lastIndex past a zero-length match).  The fuel argument dominates the number
of scan positions. -/
def countMatchesAux (kw s : List Char) : ℕ → ℕ → ℕ
  | _, 0 => 0
  | p, fuel + 1 =>
    if s.length < p then 0
    else if wholeWordMatchAt kw s p then 1 + countMatchesAux kw s (p + max kw.length 1) fuel
    else countMatchesAux kw s (p + 1) fuel

/-- Number of whole-word, non-overlapping occurrences of kw in s
(the match count of new RegExp("\\b" + escaped + "\\b", "gi")). -/
def countMatches (kw s : List Char) : ℕ :=
  countMatchesAux kw s 0 (s.length + 2)

/-- Category of priority keywords with a weight multiplier
(src/config/keywords.ts). -/
structure KeywordCategory where
  name : String
  weight : ℚ
  keywords : List String
  deriving DecidableEq

/-- The keyword table of src/config/keywords.ts, transcribed verbatim. -/
def KEYWORD_CATEGORIES : List KeywordCategory := [
  { name := "offers", weight := 2.0, keywords := [
      "offre", "offres", "offer", "offers",
      "promotion", "promotions", "promo", "promos",
      "réduction", "reduction", "remise", "discount",
      "gratuité", "gratuit", "free", "bonus",
      "solde", "deal", "deals", "pack", "packs",
      "tarif", "tarifs", "price", "prix"] },
  { name := "gaming", weight := 2.5, keywords := [
      "gaming", "gamer", "game", "games", "jeux", "jeu",
      "pubg", "free fire", "freefire", "mobile legends",
      "fortnite", "cod", "call of duty", "fifa",
      "esport", "esports", "stream", "streaming",
      "ping", "latency", "lag", "fps",
      "pack gamer", "gamer pack", "gaming pack"] },
  { name := "contracts", weight := 2.0, keywords := [
      "contrat", "contrats", "contract", "contracts",
      "abonnement", "abonnements", "subscription",
      "forfait", "forfaits", "plan", "plans",
      "engagement", "engagements", "commitment",
      "résiliation", "resiliation", "cancel", "cancellation",
      "renouvellement", "renewal", "renew",
      "conditions", "terms", "modalités"] },
  { name := "internet", weight := 1.8, keywords := [
      "internet", "fibre", "fiber", "ftth", "fttp",
      "adsl", "vdsl", "connexion", "connection",
      "débit", "debit", "speed", "vitesse",
      "data", "données", "go", "mo", "gb", "mb",
      "wifi", "wi-fi", "routeur", "router", "modem",
      "box", "idoom", "4g", "5g", "lte"] },
  { name := "mobile", weight := 1.8, keywords := [
      "mobile", "mobiles", "téléphone", "telephone", "phone",
      "sim", "carte sim", "sim card", "esim",
      "recharge", "recharges", "topup", "top-up",
      "crédit", "credit", "solde", "balance",
      "appel", "appels", "call", "calls",
      "sms", "message", "messages", "texto",
      "mobilis", "djezzy", "ooredoo"] },
  { name := "services", weight := 1.5, keywords := [
      "service", "services", "assistance", "support",
      "hotline", "helpdesk", "help desk", "aide",
      "réclamation", "reclamation", "complaint", "plainte",
      "demande", "request", "ticket", "tickets",
      "agence", "agency", "boutique", "store",
      "contact", "contacter", "joindre"] },
  { name := "billing", weight := 1.8, keywords := [
      "facture", "factures", "bill", "bills", "invoice",
      "paiement", "payment", "payer", "pay",
      "solde", "balance", "montant", "amount",
      "consommation", "consumption", "usage",
      "facturation", "billing", "prélèvement",
      "dette", "debt", "impayé", "unpaid",
      "ccp", "edahabia", "baridi mob"] },
  { name := "enterprise", weight := 1.7, keywords := [
      "entreprise", "entreprises", "enterprise", "business",
      "professionnel", "professional", "pro",
      "b2b", "corporate", "société", "company",
      "pme", "tpe", "startup", "startups",
      "cloud", "hosting", "hébergement",
      "vpn", "ip fixe", "static ip", "dédié", "dedicated"] },
  { name := "technical", weight := 1.6, keywords := [
      "panne", "outage", "coupure", "interruption",
      "problème", "problem", "issue", "bug",
      "configuration", "configurer", "configure", "setup",
      "installation", "installer", "install",
      "diagnostic", "test", "vérification", "check",
      "dépannage", "troubleshoot", "résoudre", "fix"] },
  { name := "activation", weight := 1.8, keywords := [
      "activation", "activer", "activate", "active",
      "désactivation", "désactiver", "deactivate",
      "souscrire", "subscribe", "souscription",
      "inscription", "register", "registration",
      "commander", "order", "commande"] }]

/-- Lookup function of the flattened KEYWORD_WEIGHTS map: the build loop
keeps, for each lowercased keyword, the largest category weight seen. -/
def keywordWeightsFind (k : String) : Option ℚ :=
  KEYWORD_CATEGORIES.foldl
    (fun acc cat =>
      if cat.keywords.any (fun kw => lowerStr kw == k) ∧ (acc.getD 0) < cat.weight then
        some cat.weight
      else acc)
    none

/-- Weight of a keyword; 1.0 for unknown keywords. -/
def getKeywordWeight (keyword : String) : ℚ :=
  (keywordWeightsFind (lowerStr keyword)).getD 1

/-- A query keyword together with its weight. -/
structure WeightedKeyword where
  keyword : String
  weight : ℚ
  deriving DecidableEq

/-- First loop of extractKeywordsWithWeights: single words of the lowercased
query, cleaned, of length at least 2, deduplicated through the seen set, kept
when their weight exceeds 1. -/
def extractSingleWords : List (List Char) → List String → List WeightedKeyword →
    List String × List WeightedKeyword
  | [], seen, result => (seen, result)
  | w :: ws, seen, result =>
    let cleanWord := String.mk (w.filter isKeptChar)
    if 2 ≤ cleanWord.length ∧ ¬ seen.contains cleanWord then
      if 1 < getKeywordWeight cleanWord then
        extractSingleWords ws (cleanWord :: seen) (result ++ [⟨cleanWord, getKeywordWeight cleanWord⟩])
      else
        extractSingleWords ws (cleanWord :: seen) result
    else extractSingleWords ws seen result

/-- Inner loop of the multi-word scan: keywords of one category. -/
def extractMultiKw (textLower : String) (w : ℚ) : List String → List String →
    List WeightedKeyword → List String × List WeightedKeyword
  | [], seen, result => (seen, result)
  | kw :: kws, seen, result =>
    if kw.toList.contains ' ' ∧ hasSubList kw.toList textLower.toList ∧ ¬ seen.contains kw then
      extractMultiKw textLower w kws (kw :: seen) (result ++ [⟨kw, w⟩])
    else extractMultiKw textLower w kws seen result

/-- Outer loop of the multi-word scan: all categories. -/
def extractMultiCats (textLower : String) : List KeywordCategory → List String →
    List WeightedKeyword → List String × List WeightedKeyword
  | [], seen, result => (seen, result)
  | cat :: cats, seen, result =>
    let p := extractMultiKw textLower cat.weight cat.keywords seen result
    extractMultiCats textLower cats p.1 p.2

/-- extractKeywordsWithWeights of src/config/keywords.ts. -/
def extractKeywordsWithWeights (text : String) : List WeightedKeyword :=
  let words := splitWs (lowerStr text).toList
  let p := extractSingleWords words [] []
  let q := extractMultiCats (lowerStr text) KEYWORD_CATEGORIES p.1 p.2
  q.2

/-- One priority-keyword match as recorded by calculateKeywordScore. -/
structure KeywordMatch where
  keyword : String
  weight : ℚ
  count : ℕ
  deriving DecidableEq

/-- Result of calculateKeywordScore.  The source field holding the matches
is called matches, a reserved word in Lean, hence matchList here. -/
structure KeywordScore where
  score : ℚ
  matchList : List KeywordMatch
  deriving DecidableEq

/-- First loop of calculateKeywordScore over the priority keywords:
accumulates (totalScore, maxPossibleScore, matches).  A present keyword
contributes weight times min(1 + log10 count, 2); every keyword adds its
weight to maxPossibleScore.  lg stands for Math.log10 on a positive count. -/
def keywordLoop (lg : ℕ → ℚ) (docLower : List Char) :
    List WeightedKeyword → ℚ × ℚ × List KeywordMatch → ℚ × ℚ × List KeywordMatch
  | [], acc => acc
  | k :: ks, (total, maxP, ms) =>
    let count := countMatches k.keyword.toList docLower
    if 0 < count then
      keywordLoop lg docLower ks
        (total + k.weight * min (1 + lg count) 2, maxP + k.weight, ms ++ [⟨k.keyword, k.weight, count⟩])
    else
      keywordLoop lg docLower ks (total, maxP + k.weight, ms)

/-- Second loop of calculateKeywordScore over all query words (of raw length
at least 3): a cleaned word of length at least 3 that is not a priority
keyword adds 1.0 to maxPossibleScore and 0.5 to totalScore when the document
contains it.  Note the loop does not deduplicate repeated words. -/
def extraWordsLoop (queryKeywords : List WeightedKeyword) (docLower : List Char) :
    List (List Char) → ℚ × ℚ → ℚ × ℚ
  | [], acc => acc
  | w :: ws, (total, maxP) =>
    let cleanWord := w.filter isKeptChar
    if 3 ≤ cleanWord.length ∧ ¬ queryKeywords.any (fun k => k.keyword == String.mk cleanWord) then
      extraWordsLoop queryKeywords docLower ws
        (total + (if hasSubList cleanWord docLower then 0.5 else 0), maxP + 1)
    else
      extraWordsLoop queryKeywords docLower ws (total, maxP)

/-- calculateKeywordScore of src/utils/keywordSearch.ts.  lg models
Math.log10 (applied only to positive match counts). -/
def calculateKeywordScore (lg : ℕ → ℚ) (query documentText : String) : KeywordScore :=
  let queryKeywords := extractKeywordsWithWeights query
  let docLower := (lowerStr documentText).toList
  let acc1 := keywordLoop lg docLower queryKeywords (0, 0, [])
  let queryWords := (splitWs (lowerStr query).toList).filter (fun w => 3 ≤ w.length)
  let acc2 := extraWordsLoop queryKeywords docLower queryWords (acc1.1, acc1.2.1)
  let normalizedScore := if 0 < acc2.2 then min (acc2.1 / acc2.2) 1 else 0
  ⟨normalizedScore, acc1.2.2⟩

/-- calculateHybridScore of src/utils/keywordSearch.ts. -/
def calculateHybridScore (semanticScore keywordScore semanticWeight keywordWeight : ℚ) : ℚ :=
  semanticScore * semanticWeight + keywordScore * keywordWeight

/-- Metadata of a retrieved document chunk (src/utils/reranker.ts). -/
structure DocMetadata where
  fileName : String
  lineNumber : String
  text : String
  deriving DecidableEq

/-- RetrievedDocument of src/utils/reranker.ts. -/
structure RetrievedDocument where
  id : String
  score : ℚ
  metadata : DocMetadata
  deriving DecidableEq

/-- RankedDocument of src/utils/reranker.ts. -/
structure RankedDocument where
  id : String
  score : ℚ
  metadata : DocMetadata
  originalRank : ℕ
  semanticScore : ℚ
  keywordScore : ℚ
  hybridScore : ℚ
  finalScore : ℚ
  deriving DecidableEq

/-- RerankerConfig of src/utils/reranker.ts. -/
structure RerankerConfig where
  semanticWeight : ℚ
  keywordWeight : ℚ
  initialRetrievalCount : ℕ
  finalResultCount : ℕ
  deriving DecidableEq

/-- Partial RerankerConfig: the optional per-call override object. -/
structure RerankerPartialConfig where
  semanticWeight : Option ℚ := none
  keywordWeight : Option ℚ := none
  initialRetrievalCount : Option ℕ := none
  finalResultCount : Option ℕ := none
  deriving DecidableEq

/-- DEFAULT_CONFIG of src/utils/reranker.ts. -/
def DEFAULT_CONFIG : RerankerConfig :=
  { semanticWeight := 0.6, keywordWeight := 0.4
    initialRetrievalCount := 20, finalResultCount := 10 }

/-- Spread merge of the defaults with the caller overrides. -/
def mergeConfig (config : RerankerPartialConfig) : RerankerConfig :=
  { semanticWeight := config.semanticWeight.getD DEFAULT_CONFIG.semanticWeight
    keywordWeight := config.keywordWeight.getD DEFAULT_CONFIG.keywordWeight
    initialRetrievalCount := config.initialRetrievalCount.getD DEFAULT_CONFIG.initialRetrievalCount
    finalResultCount := config.finalResultCount.getD DEFAULT_CONFIG.finalResultCount }

/-- Step 1 of rerankDocuments: score every candidate; the second numeric
argument is the running 0-based map index (originalRank is index + 1). -/
def scoreDocuments (lg : ℕ → ℚ) (semanticWeight keywordWeight : ℚ) (query : String) :
    List RetrievedDocument → ℕ → List RankedDocument
  | [], _ => []
  | doc :: docs, index =>
    { id := doc.id, score := doc.score, metadata := doc.metadata
      originalRank := index + 1
      semanticScore := doc.score
      keywordScore := (calculateKeywordScore lg query doc.metadata.text).score
      hybridScore := calculateHybridScore doc.score
        (calculateKeywordScore lg query doc.metadata.text).score semanticWeight keywordWeight
      finalScore := calculateHybridScore doc.score
        (calculateKeywordScore lg query doc.metadata.text).score semanticWeight keywordWeight }
      :: scoreDocuments lg semanticWeight keywordWeight query docs (index + 1)

/-- Comparator of step 2: a sorts before b when its finalScore is at least
as large (the stable JavaScript sort with (a, b) => b.finalScore - a.finalScore). -/
abbrev byFinalScoreDesc (a b : RankedDocument) : Prop :=
  b.finalScore ≤ a.finalScore

instance : DecidableRel byFinalScoreDesc :=
  fun a b => inferInstanceAs (Decidable (b.finalScore ≤ a.finalScore))

instance : IsTotal RankedDocument byFinalScoreDesc :=
  ⟨fun a b => le_total b.finalScore a.finalScore⟩

instance : IsTrans RankedDocument byFinalScoreDesc :=
  ⟨fun _ _ _ hab hbc => le_trans hbc hab⟩

/-- Step 2 of rerankDocuments: stable sort, descending by finalScore. -/
def sortByFinalScore (l : List RankedDocument) : List RankedDocument :=
  l.insertionSort byFinalScoreDesc

/-- Step 3 of rerankDocuments: deduplicate by metadata.fileName, keeping the
first occurrence; the second argument is the seenFiles set, modelled as the
list of file names already seen. -/
def dedupByFile : List RankedDocument → List String → List RankedDocument
  | [], _ => []
  | doc :: docs, seenFiles =>
    if doc.metadata.fileName ∈ seenFiles then dedupByFile docs seenFiles
    else doc :: dedupByFile docs (doc.metadata.fileName :: seenFiles)

/-- Top remaining score: rankedDocs[0].finalScore, or 0 for an empty list. -/
def topScoreOf : List RankedDocument → ℚ
  | [] => 0
  | doc :: _ => doc.finalScore

/-- Step 4 threshold: topScore * 0.9 when the top score exceeds the base
threshold 0.27, the base threshold otherwise. -/
def dynamicThreshold (rankedDocs : List RankedDocument) : ℚ :=
  if 0.27 < topScoreOf rankedDocs then topScoreOf rankedDocs * 0.9 else 0.27

/-- Step 4 of rerankDocuments: keep the documents at or above the threshold. -/
def thresholdFilter (rankedDocs : List RankedDocument) : List RankedDocument :=
  rankedDocs.filter (fun doc => dynamicThreshold rankedDocs ≤ doc.finalScore)

/-- getIntentKeywords of src/utils/reranker.ts: substring checks on the
lowercased intent. -/
def getIntentKeywords (intent : String) : List String :=
  if strIncludes intent "pric" ∨ strIncludes intent "tarif" ∨ strIncludes intent "coût" ∨
      strIncludes intent "cost" then
    ["prix", "tarif", "da/mois", "dinar", "paiement", "facture"]
  else if strIncludes intent "gam" ∨ strIncludes intent "jeu" then
    ["gaming", "jeu", "ping", "latence", "gamer"]
  else if strIncludes intent "bill" ∨ strIncludes intent "factur" ∨ strIncludes intent "pay" then
    ["facture", "paiement", "payer", "edahabia", "cib", "poste"]
  else if strIncludes intent "speed" ∨ strIncludes intent "debit" ∨ strIncludes intent "lenteur" then
    ["débit", "mbps", "vitesse", "lenteur", "test"]
  else if strIncludes intent "procedure" ∨ strIncludes intent "comment" ∨ strIncludes intent "how" then
    ["comment", "procédure", "étape", "guide", "démarche"]
  else []

/-- Does a document match at least one intent keyword (case-insensitive
substring test on its text)? -/
def docMatchesIntent (intentKeywords : List String) (doc : RankedDocument) : Bool :=
  intentKeywords.any (fun kw => strIncludes (lowerStr doc.metadata.text) kw)

/-- Step 5 of rerankDocuments: intent filtering.  Runs only for a present,
non-empty intent different from the literal string unknown; the filtered
list replaces the current one only when it keeps at least one document. -/
def intentFilterStep (intent : Option String) (filteredDocs : List RankedDocument) :
    List RankedDocument :=
  match intent with
  | none => filteredDocs
  | some s =>
    if s ≠ "" ∧ s ≠ "unknown" then
      let intentKeywords := getIntentKeywords (lowerStr s)
      if intentKeywords.length ≠ 0 then
        let intentMatchingDocs := filteredDocs.filter (docMatchesIntent intentKeywords)
        if 1 ≤ intentMatchingDocs.length then intentMatchingDocs else filteredDocs
      else filteredDocs
    else filteredDocs

/-- Step 7 cap of rerankDocuments. -/
def MAX_SOURCES : ℕ := 5

/-- rerankDocuments of src/utils/reranker.ts.  lg models Math.log10 inside
the keyword scorer; intent is the optional intent argument. -/
def rerankDocuments (lg : ℕ → ℚ) (query : String) (documents : List RetrievedDocument)
    (intent : Option String) (config : RerankerPartialConfig) : List RankedDocument :=
  let finalConfig := mergeConfig config
  let scored := scoreDocuments lg finalConfig.semanticWeight finalConfig.keywordWeight
    query documents 0
  let sorted := sortByFinalScore scored
  let rankedDocs := dedupByFile sorted []
  let filtered1 := thresholdFilter rankedDocs
  let filtered2 := intentFilterStep intent filtered1
  let filtered3 :=
    if filtered2.length < 2 ∧ 2 ≤ rankedDocs.length then rankedDocs.take 2 else filtered2
  filtered3.take MAX_SOURCES

/-- CachedQuery of src/services/cacheService.ts.  Embeddings are vectors of
JavaScript numbers, modelled as reals since the cache code takes square
roots. -/
structure CachedQuery where
  question : String
  embedding : List ℝ
  retrievalResults : List RankedDocument
  timestamp : ℕ

/-- State of the in-memory cache: the queryCache map, as an association
list in insertion order, and the embeddingIndex array. -/
structure CacheState where
  queryCache : List (String × CachedQuery)
  embeddingIndex : List (String × List ℝ)

/-- Similarity threshold of the cache. -/
def SIMILARITY_THRESHOLD : ℝ := 0.95

/-- Accumulators of the cosineSimilarity loop: (dotProduct, normA, normB),
the norms being sums of squares before the square root. -/
def dotAcc : List ℝ → List ℝ → ℝ × ℝ × ℝ
  | x :: xs, y :: ys =>
    let rest := dotAcc xs ys
    (x * y + rest.1, x * x + rest.2.1, y * y + rest.2.2)
  | _, _ => (0, 0, 0)

/-- cosineSimilarity of src/services/cacheService.ts: 0 on length mismatch,
0 when the denominator vanishes, dot product over product of norms
otherwise. -/
noncomputable def cosineSimilarity (a b : List ℝ) : ℝ :=
  if a.length ≠ b.length then 0
  else
    let acc := dotAcc a b
    let denominator := Real.sqrt acc.2.1 * Real.sqrt acc.2.2
    if denominator = 0 then 0 else acc.1 / denominator

/-- Loop of checkCache over the embedding index, keeping the best match at
or above the threshold; a later entry replaces the current best only on a
strictly larger similarity. -/
noncomputable def bestSimFold (queryEmbedding : List ℝ) :
    List (String × List ℝ) → Option (String × ℝ) → Option (String × ℝ)
  | [], best => best
  | entry :: rest, best =>
    let similarity := cosineSimilarity queryEmbedding entry.2
    if SIMILARITY_THRESHOLD ≤ similarity then
      match best with
      | none => bestSimFold queryEmbedding rest (some (entry.1, similarity))
      | some b =>
        if b.2 < similarity then bestSimFold queryEmbedding rest (some (entry.1, similarity))
        else bestSimFold queryEmbedding rest (some b)
    else bestSimFold queryEmbedding rest best

/-- checkCache of src/services/cacheService.ts (the statistics counters are
not modelled; they do not influence the returned value). -/
noncomputable def checkCache (st : CacheState) (queryEmbedding : List ℝ) : Option CachedQuery :=
  match bestSimFold queryEmbedding st.embeddingIndex none with
  | some best => st.queryCache.lookup best.1
  | none => none

/-- Map.prototype.set on the association list: replace the value at an
existing key, otherwise append the new binding. -/
def mapSet (m : List (String × CachedQuery)) (k : String) (v : CachedQuery) :
    List (String × CachedQuery) :=
  if ∃ p ∈ m, p.1 = k then
    m.map (fun p => if p.1 = k then (k, v) else p)
  else m ++ [(k, v)]

/-- addToCache of src/services/cacheService.ts.  The generated id (built
from Date.now() and a random suffix) and the timestamp are parameters. -/
def addToCache (st : CacheState) (id : String) (now : ℕ) (question : String)
    (embedding : List ℝ) (results : List RankedDocument) : CacheState :=
  { queryCache := mapSet st.queryCache id
      { question := question, embedding := embedding
        retrievalResults := results, timestamp := now }
    embeddingIndex := st.embeddingIndex ++ [(id, embedding)] }

/-- Well-formedness of a cache state: every id of the embedding index is
bound in the queryCache map to an entry carrying that same embedding.  The
empty state has it and addToCache with a fresh id preserves it. -/
def CacheWF (st : CacheState) : Prop :=
  ∀ p ∈ st.embeddingIndex, ∃ c, st.queryCache.lookup p.1 = some c ∧ c.embedding = p.2

/-- RefinedQuery of src/utils/ghostPrompt.ts. -/
structure RefinedQuery where
  originalQuery : String
  refinedQuery : String
  intent : String
  entities : List String
  isAmbiguous : Bool
  deriving DecidableEq

/-- Shape of the parsed JSON object as consumed by the refiner: a string
field is none when absent, the entities field is some when Array.isArray
holds, and isAmbiguous is the truthiness Boolean(parsed.isAmbiguous). -/
structure GhostJson where
  refinedQuery : Option String
  intent : Option String
  entities : Option (List String)
  isAmbiguous : Bool
  deriving DecidableEq

/-- Fallback object returned on any refinement failure. -/
def fallbackRefined (query : String) : RefinedQuery :=
  { originalQuery := query, refinedQuery := query, intent := "unknown"
    entities := [], isAmbiguous := false }

/-- JavaScript (value || default) for a string-or-absent field: the empty
string is falsy. -/
def jsOrDefault (v : Option String) (d : String) : String :=
  match v with
  | none => d
  | some s => if s = "" then d else s

/-- Index of the first occurrence of a character. -/
def firstIdxOf (c : Char) (cs : List Char) : Option ℕ :=
  cs.findIdx? (fun x => x == c)

/-- Index of the last occurrence of a character. -/
def lastIdxOf (c : Char) (cs : List Char) : Option ℕ :=
  match cs.reverse.findIdx? (fun x => x == c) with
  | some k => some (cs.length - 1 - k)
  | none => none

/-- Match of the greedy regex over the response: the span from the first
opening brace through the last closing brace, when the latter comes after
the former; none otherwise. -/
def jsonSpan (response : String) : Option String :=
  let cs := response.toList
  match firstIdxOf '\x7b' cs, lastIdxOf '\x7d' cs with
  | some i, some j => if i < j then some (String.mk ((cs.drop i).take (j - i + 1))) else none
  | _, _ => none

/-- Drop characters until the first opening brace (kept). -/
def dropUntilOpen : List Char → Option (List Char)
  | [] => none
  | c :: cs => if c = '\x7b' then some (c :: cs) else dropUntilOpen cs

/-- Brace-counting scan collecting characters until the depth returns to
zero. -/
def firstBalancedGo : List Char → ℕ → List Char → Option (List Char)
  | [], _, _ => none
  | c :: cs, depth, acc =>
    if c = '\x7b' then firstBalancedGo cs (depth + 1) (acc ++ [c])
    else if c = '\x7d' then
      if depth ≤ 1 then some (acc ++ [c])
      else firstBalancedGo cs (depth - 1) (acc ++ [c])
    else firstBalancedGo cs depth (acc ++ [c])

/-- Modelled from the claim wording for comparison with jsonSpan: the first
balanced brace block of the response. -/
def firstBalancedBlock (response : String) : Option String :=
  match dropUntilOpen response.toList with
  | none => none
  | some cs => (firstBalancedGo cs 0 []).map String.mk

/-- refineQueryWithGhostPrompt of src/utils/ghostPrompt.ts.  The LLM call is
modelled by its outcome (none when chatWithDeepSeek throws) and JSON.parse
by the parse argument (none when parsing throws).  The function itself
never fails: every branch returns a RefinedQuery. -/
def refineQueryWithGhostPrompt (parse : String → Option GhostJson)
    (response : Option String) (query : String) : RefinedQuery :=
  match response with
  | none => fallbackRefined query
  | some resp =>
    match jsonSpan resp with
    | none => fallbackRefined query
    | some block =>
      match parse block with
      | none => fallbackRefined query
      | some parsed =>
        { originalQuery := query
          refinedQuery := jsOrDefault parsed.refinedQuery query
          intent := jsOrDefault parsed.intent "unknown"
          entities := parsed.entities.getD []
          isAmbiguous := parsed.isAmbiguous }

/-- A response carrying two top-level JSON objects: the greedy regex takes
the span from the first opening to the last closing brace, which is not
valid JSON, while the first balanced block alone is. -/
def ghostResponseTwoBlocks : String :=
  "\x7b\"refinedQuery\":\"r\"\x7d \x7b\x7d"

/-- Modelled from JSON.parse restricted to the two inputs of the
counterexample: the first balanced block parses to an object whose
refinedQuery is r; any other string (in particular the greedy span holding
two top-level objects) throws, that is, returns none. -/
def parseTwoBlocksModel (s : String) : Option GhostJson :=
  if s = "\x7b\"refinedQuery\":\"r\"\x7d" then
    some { refinedQuery := some "r", intent := none, entities := none, isAmbiguous := false }
  else none

/-- Stand-in for Math.log10 in concrete instantiations (the claims below
never depend on its values, only on nonnegativity). -/
def log10Floor (n : ℕ) : ℚ :=
  (Nat.log 10 n : ℚ)

/-- One candidate of the dynamic-threshold scenario: semantic score 1/6 and
an empty text give a final hybrid score of exactly 0.1 under the default
0.6/0.4 weights. -/
def scenarioDoc (i : ℕ) : RetrievedDocument :=
  { id := toString i, score := 1/6
    metadata := { fileName := toString i, lineNumber := "0", text := "" } }

/-- Twenty candidates, all scoring 0.1, with pairwise distinct file names. -/
def scenarioDocs : List RetrievedDocument :=
  (List.range 20).map scenarioDoc

/-- The ranked form of scenarioDoc i after scoring. -/
def scenarioRanked (i : ℕ) : RankedDocument :=
  { id := toString i, score := 1/6
    metadata := { fileName := toString i, lineNumber := "0", text := "" }
    originalRank := i + 1, semanticScore := 1/6, keywordScore := 0
    hybridScore := 1/10, finalScore := 1/10 }

/-- Two documents from distinct files, used to instantiate the universally
quantified reranker claims. -/
def twoDocs : List RetrievedDocument :=
  [ { id := "a", score := 1, metadata := { fileName := "f1", lineNumber := "0", text := "" } },
    { id := "b", score := 1/2, metadata := { fileName := "f2", lineNumber := "0", text := "" } } ]

/-- Ranked form of the first element of twoDocs. -/
def twoRanked1 : RankedDocument :=
  { id := "a", score := 1, metadata := { fileName := "f1", lineNumber := "0", text := "" }
    originalRank := 1, semanticScore := 1, keywordScore := 0
    hybridScore := 3/5, finalScore := 3/5 }

/-- Whole-word count of one weighted keyword in the lowercased document. -/
def keywordCount (docLower : List Char) (k : WeightedKeyword) : ℕ :=
  countMatches k.keyword.toList docLower

/-- Closed form of the maxPossibleScore contribution of the priority loop:
the sum of all extracted keyword weights. -/
def priorityMaxPossible (ks : List WeightedKeyword) : ℚ :=
  (ks.map (fun k => k.weight)).sum

/-- Closed form of the totalScore contribution of the priority loop. -/
def priorityTotal (lg : ℕ → ℚ) (docLower : List Char) (ks : List WeightedKeyword) : ℚ :=
  ((ks.filter (fun k => 0 < keywordCount docLower k)).map
    (fun k => k.weight * min (1 + lg (keywordCount docLower k)) 2)).sum

/-- Closed form of the matches list of the priority loop. -/
def priorityMatchList (docLower : List Char) (ks : List WeightedKeyword) : List KeywordMatch :=
  (ks.filter (fun k => 0 < keywordCount docLower k)).map
    (fun k => { keyword := k.keyword, weight := k.weight, count := keywordCount docLower k })

/-- Query words surviving the raw length filter of the second loop. -/
def extraQueryWords (query : String) : List (List Char) :=
  (splitWs (lowerStr query).toList).filter (fun w => 3 ≤ w.length)

/-- Cleaned words qualifying in the second loop: cleaned length at least 3
and not a priority keyword.  Multiplicities are kept, exactly as in the
loop, which does not deduplicate. -/
def cleanWordsOf (qk : List WeightedKeyword) (ws : List (List Char)) : List (List Char) :=
  (ws.map (fun w => w.filter isKeptChar)).filter
    (fun c => 3 ≤ c.length ∧ ¬ qk.any (fun k => k.keyword == String.mk c))

/-- The qualifying non-priority words of a query, with multiplicities. -/
def cleanedExtraWords (qk : List WeightedKeyword) (query : String) : List (List Char) :=
  cleanWordsOf qk (extraQueryWords query)

/-- Closed form of the totalScore of calculateKeywordScore. -/
def keywordTotalScore (lg : ℕ → ℚ) (query doc : String) : ℚ :=
  priorityTotal lg (lowerStr doc).toList (extractKeywordsWithWeights query) +
    (((cleanedExtraWords (extractKeywordsWithWeights query) query).filter
      (fun c => hasSubList c (lowerStr doc).toList)).length : ℚ) * 0.5

/-- Closed form of the maxPossibleScore of calculateKeywordScore (it does
not depend on the document). -/
def keywordMaxPossible (query : String) : ℚ :=
  priorityMaxPossible (extractKeywordsWithWeights query) +
    ((cleanedExtraWords (extractKeywordsWithWeights query) query).length : ℚ)

/-- Modelled from the claim wording, for comparison with the code: the
score predicted when each DISTINCT non-priority query word adds 1.0 to the
maximum and 0.5 to the total when present in the document. -/
def claimKeywordScoreDistinct (lg : ℕ → ℚ) (query doc : String) : ℚ :=
  let qk := extractKeywordsWithWeights query
  let docLower := (lowerStr doc).toList
  let distinctWords := (cleanedExtraWords qk query).dedup
  let maxP := priorityMaxPossible qk + (distinctWords.length : ℚ)
  let total := priorityTotal lg docLower qk +
    ((distinctWords.filter (fun c => hasSubList c docLower)).length : ℚ) * 0.5
  if maxP = 0 then 0 else min (total / maxP) 1

example : getKeywordWeight "prix" = 2 := by decide
example : getKeywordWeight "solde" = 2 := by decide
example : getKeywordWeight "foo" = 1 := by decide
example : countMatches "foo".toList "a foo b foo".toList = 2 := by decide
example : countMatches "foo".toList "foofoo".toList = 0 := by decide
example : (calculateKeywordScore (fun _ => 0) "prix foo foo" "foo").score = 1/4 := by decide
example : (calculateKeywordScore (fun _ => 0) "" "x").score = 0 := by decide

/-- The sort of step 2 is sorted for the descending comparator. -/
theorem sortByFinalScore_sorted (l : List RankedDocument) :
    List.Sorted byFinalScoreDesc (sortByFinalScore l) :=
  List.sorted_insertionSort byFinalScoreDesc l

/-- The sort of step 2 permutes its input. -/
theorem sortByFinalScore_perm (l : List RankedDocument) :
    (sortByFinalScore l).Perm l :=
  List.perm_insertionSort byFinalScoreDesc l

/-- Deduplication returns a sublist of its input. -/
theorem dedupByFile_sublist (l : List RankedDocument) :
    ∀ seen, (dedupByFile l seen).Sublist l := by
  induction l with
  | nil => intro seen; simp [dedupByFile]
  | cons x xs ih =>
    intro seen
    simp only [dedupByFile]
    split
    · exact (ih seen).cons x
    · exact (ih _).cons₂ x

/-- Every document kept by deduplication has an unseen file name and is the
first document of the input carrying its file name. -/
theorem mem_dedupByFile (l : List RankedDocument) :
    ∀ seen d, d ∈ dedupByFile l seen →
      d.metadata.fileName ∉ seen ∧
      l.find? (fun y => y.metadata.fileName == d.metadata.fileName) = some d := by
  induction l with
  | nil => intro seen d h; simp [dedupByFile] at h
  | cons x xs ih =>
    intro seen d h
    simp only [dedupByFile] at h
    split at h
    · rename_i hx
      obtain ⟨h1, h2⟩ := ih seen d h
      have hne : (x.metadata.fileName == d.metadata.fileName) = false := by
        rw [beq_eq_false_iff_ne]
        intro hEq
        exact h1 (hEq ▸ hx)
      exact ⟨h1, by rw [List.find?_cons_of_neg _ (by simp [hne])]; exact h2⟩
    · rename_i hx
      rcases List.mem_cons.mp h with rfl | h
      · exact ⟨hx, List.find?_cons_of_pos _ (by simp)⟩
      · obtain ⟨h1, h2⟩ := ih _ d h
        have hdx : d.metadata.fileName ≠ x.metadata.fileName := by
          intro hEq
          exact h1 (by rw [hEq]; exact List.mem_cons_self _ _)
        refine ⟨fun hmem => h1 (List.mem_cons_of_mem _ hmem), ?_⟩
        rw [List.find?_cons_of_neg _ (by simp; exact fun hEq => hdx hEq.symm)]
        exact h2

/-- File names of the deduplicated list are pairwise distinct and avoid the
seen set. -/
theorem dedupByFile_names (l : List RankedDocument) :
    ∀ seen, ((dedupByFile l seen).map (fun d => d.metadata.fileName)).Nodup ∧
      ∀ n ∈ (dedupByFile l seen).map (fun d => d.metadata.fileName), n ∉ seen := by
  induction l with
  | nil => intro seen; simp [dedupByFile]
  | cons x xs ih =>
    intro seen
    simp only [dedupByFile]
    split
    · exact ih seen
    · rename_i hx
      obtain ⟨hnd, havoid⟩ := ih (x.metadata.fileName :: seen)
      refine ⟨List.nodup_cons.mpr ⟨?_, hnd⟩, ?_⟩
      · intro hmem
        exact havoid _ hmem (List.mem_cons_self _ _)
      · intro n hn
        rcases List.mem_cons.mp hn with rfl | hn
        · exact hx
        · exact fun hmem => havoid n hn (List.mem_cons_of_mem _ hmem)

/-- A member of the input with an unseen file name leaves a representative
of its file in the deduplicated output. -/
theorem dedupByFile_mem_name (l : List RankedDocument) :
    ∀ seen (a : RankedDocument), a ∈ l → a.metadata.fileName ∉ seen →
      ∃ d ∈ dedupByFile l seen, d.metadata.fileName = a.metadata.fileName := by
  induction l with
  | nil => intro seen a ha; simp at ha
  | cons x xs ih =>
    intro seen a ha hns
    simp only [dedupByFile]
    split
    · rename_i hx
      rcases List.mem_cons.mp ha with rfl | ha
      · exact absurd hx hns
      · exact ih seen a ha hns
    · rename_i hx
      by_cases hax : a.metadata.fileName = x.metadata.fileName
      · exact ⟨x, List.mem_cons_self _ _, hax.symm⟩
      · rcases List.mem_cons.mp ha with rfl | ha
        · exact absurd rfl hax
        · obtain ⟨d, hd, hdn⟩ := ih (x.metadata.fileName :: seen) a ha
            (by simp [hax, hns])
          exact ⟨d, List.mem_cons_of_mem _ hd, hdn⟩

/-- Two input documents from distinct, unseen files force at least two
documents in the deduplicated output. -/
theorem dedupByFile_two (l : List RankedDocument) :
    ∀ seen (a b : RankedDocument), a ∈ l → b ∈ l →
      a.metadata.fileName ≠ b.metadata.fileName →
      a.metadata.fileName ∉ seen → b.metadata.fileName ∉ seen →
      2 ≤ (dedupByFile l seen).length := by
  induction l with
  | nil => intro seen a b ha; simp at ha
  | cons x xs ih =>
    intro seen a b ha hb hab hans hbns
    simp only [dedupByFile]
    split
    · rename_i hx
      rcases List.mem_cons.mp ha with rfl | ha
      · exact absurd hx hans
      · rcases List.mem_cons.mp hb with rfl | hb
        · exact absurd hx hbns
        · exact ih seen a b ha hb hab hans hbns
    · rename_i hx
      have key : ∃ c ∈ xs, c.metadata.fileName ≠ x.metadata.fileName ∧
          c.metadata.fileName ∉ seen := by
        by_cases hax : a.metadata.fileName = x.metadata.fileName
        · have hbx : b.metadata.fileName ≠ x.metadata.fileName := fun hEq =>
            hab (hax.trans hEq.symm)
          rcases List.mem_cons.mp hb with rfl | hb
          · exact absurd rfl hbx
          · exact ⟨b, hb, hbx, hbns⟩
        · rcases List.mem_cons.mp ha with rfl | ha
          · exact absurd rfl hax
          · exact ⟨a, ha, hax, hans⟩
      obtain ⟨c, hc, hcx, hcns⟩ := key
      obtain ⟨d, hd, _⟩ := dedupByFile_mem_name xs (x.metadata.fileName :: seen) c hc
        (by simp [hcx, hcns])
      have : 1 ≤ (dedupByFile xs (x.metadata.fileName :: seen)).length :=
        List.length_pos.mpr (List.ne_nil_of_mem hd)
      simp only [List.length_cons]
      omega

/-- Scoring preserves the metadata sequence. -/
theorem scoreDocuments_map_metadata (lg : ℕ → ℚ) (sw kw : ℚ) (q : String)
    (l : List RetrievedDocument) :
    ∀ i, (scoreDocuments lg sw kw q l i).map (fun d => d.metadata) =
      l.map (fun d => d.metadata) := by
  induction l with
  | nil => intro i; simp [scoreDocuments]
  | cons d ds ih => intro i; simp [scoreDocuments, ih]

/-- The threshold filter returns a sublist of its input. -/
theorem thresholdFilter_sublist (l : List RankedDocument) :
    (thresholdFilter l).Sublist l :=
  List.filter_sublist l

/-- The intent filter returns a sublist of its input. -/
theorem intentFilterStep_sublist (intent : Option String) (l : List RankedDocument) :
    (intentFilterStep intent l).Sublist l := by
  cases intent with
  | none => simp only [intentFilterStep]; exact List.Sublist.refl l
  | some s =>
    simp only [intentFilterStep]
    split
    · split
      · split
        · exact List.filter_sublist l
        · exact List.Sublist.refl l
      · exact List.Sublist.refl l
    · exact List.Sublist.refl l

/-- The reranker output is a sublist of the sorted deduplicated list. -/
theorem rerankDocuments_sublist_ranked (lg : ℕ → ℚ) (q : String)
    (docs : List RetrievedDocument) (intent : Option String)
    (config : RerankerPartialConfig) :
    (rerankDocuments lg q docs intent config).Sublist
      (dedupByFile (sortByFinalScore (scoreDocuments lg
        (mergeConfig config).semanticWeight (mergeConfig config).keywordWeight q docs 0)) []) := by
  unfold rerankDocuments
  refine List.Sublist.trans (List.take_sublist _ _) ?_
  split
  · exact List.take_sublist _ _
  · exact List.Sublist.trans (intentFilterStep_sublist _ _) (thresholdFilter_sublist _)

/-- The reranker never returns more than five documents. -/
theorem rerankDocuments_length_le (lg : ℕ → ℚ) (q : String)
    (docs : List RetrievedDocument) (intent : Option String)
    (config : RerankerPartialConfig) :
    (rerankDocuments lg q docs intent config).length ≤ 5 := by
  unfold rerankDocuments
  simp only [List.length_take, MAX_SOURCES]
  omega

/-- The intent filter maps the empty list to the empty list. -/
theorem intentFilterStep_nil (intent : Option String) :
    intentFilterStep intent [] = [] :=
  List.sublist_nil.mp (intentFilterStep_sublist intent [])

set_option maxRecDepth 10000 in
/-- C1: after scoring, sorting and dedup-by-file, the threshold applied is
topScore*0.9 when the top remaining finalScore exceeds 0.27 and the fixed
floor 0.27 otherwise (topScore being 0 for an empty list), and exactly the
documents with finalScore at or above that threshold survive the threshold
step; for twenty candidates all with finalScore 0.1, the threshold is 0.27,
every candidate is filtered out, and the minimum-result fallback restores
the top two documents. -/
theorem claimC1_dynamic_threshold :
    (∀ (l : List RankedDocument) (d : RankedDocument),
        d ∈ thresholdFilter l ↔
          d ∈ l ∧ (if 0.27 < topScoreOf l then topScoreOf l * 0.9 else 0.27) ≤ d.finalScore) ∧
    dynamicThreshold (dedupByFile (sortByFinalScore
      (scoreDocuments log10Floor 0.6 0.4 "" scenarioDocs 0)) []) = 0.27 ∧
    thresholdFilter (dedupByFile (sortByFinalScore
      (scoreDocuments log10Floor 0.6 0.4 "" scenarioDocs 0)) []) = [] ∧
    rerankDocuments log10Floor "" scenarioDocs none {} = [scenarioRanked 0, scenarioRanked 1] := by
  refine ⟨?_, by decide, by decide, by decide⟩
  intro l d
  simp [thresholdFilter, dynamicThreshold, List.mem_filter, decide_eq_true_eq]

/-- C2: the reranker output has length at most 5, length at least 2
whenever the input holds documents from two distinct files, and the empty
input yields the empty output. -/
theorem claimC2_output_size (lg : ℕ → ℚ) (q : String) (docs : List RetrievedDocument)
    (intent : Option String) (config : RerankerPartialConfig) :
    (rerankDocuments lg q docs intent config).length ≤ 5 ∧
    ((∃ a ∈ docs, ∃ b ∈ docs, a.metadata.fileName ≠ b.metadata.fileName) →
      2 ≤ (rerankDocuments lg q docs intent config).length) ∧
    rerankDocuments lg q [] intent config = [] := by
  refine ⟨rerankDocuments_length_le lg q docs intent config, ?_, ?_⟩
  · rintro ⟨a, ha, b, hb, hab⟩
    have hmapa : a.metadata ∈ (scoreDocuments lg (mergeConfig config).semanticWeight
        (mergeConfig config).keywordWeight q docs 0).map (fun d => d.metadata) := by
      rw [scoreDocuments_map_metadata]
      exact List.mem_map_of_mem _ ha
    have hmapb : b.metadata ∈ (scoreDocuments lg (mergeConfig config).semanticWeight
        (mergeConfig config).keywordWeight q docs 0).map (fun d => d.metadata) := by
      rw [scoreDocuments_map_metadata]
      exact List.mem_map_of_mem _ hb
    obtain ⟨x, hx, hxa⟩ := List.mem_map.mp hmapa
    obtain ⟨y, hy, hyb⟩ := List.mem_map.mp hmapb
    have hxs : x ∈ sortByFinalScore (scoreDocuments lg (mergeConfig config).semanticWeight
        (mergeConfig config).keywordWeight q docs 0) :=
      (sortByFinalScore_perm _).mem_iff.mpr hx
    have hys : y ∈ sortByFinalScore (scoreDocuments lg (mergeConfig config).semanticWeight
        (mergeConfig config).keywordWeight q docs 0) :=
      (sortByFinalScore_perm _).mem_iff.mpr hy
    have hxy : x.metadata.fileName ≠ y.metadata.fileName := by
      rw [hxa, hyb]
      exact hab
    have hR : 2 ≤ (dedupByFile (sortByFinalScore (scoreDocuments lg
        (mergeConfig config).semanticWeight (mergeConfig config).keywordWeight q docs 0)) []).length :=
      dedupByFile_two _ [] x y hxs hys hxy (by simp) (by simp)
    unfold rerankDocuments
    simp only [List.length_take, MAX_SOURCES]
    split
    · rw [List.length_take]
      omega
    · rename_i hcond
      rcases Nat.lt_or_ge (intentFilterStep intent (thresholdFilter (dedupByFile
        (sortByFinalScore (scoreDocuments lg (mergeConfig config).semanticWeight
          (mergeConfig config).keywordWeight q docs 0)) []))).length 2 with hf | hf
      · exact absurd ⟨hf, hR⟩ hcond
      · omega
  · exact List.sublist_nil.mp (rerankDocuments_sublist_ranked lg q [] intent config)

/-- C2 witness: two concrete documents from distinct files give at least two
results. -/
theorem claimC2_output_size_witness :
    (∃ a ∈ twoDocs, ∃ b ∈ twoDocs, a.metadata.fileName ≠ b.metadata.fileName) ∧
    2 ≤ (rerankDocuments log10Floor "" twoDocs none {}).length := by
  have h := claimC2_output_size log10Floor "" twoDocs none {}
  have hex : ∃ a ∈ twoDocs, ∃ b ∈ twoDocs, a.metadata.fileName ≠ b.metadata.fileName := by decide
  exact ⟨hex, h.2.1 hex⟩

/-- C3: no two output documents share a file name, and every output
document is the first occurrence of its file name in the sorted scored
list. -/
theorem claimC3_dedup (lg : ℕ → ℚ) (q : String) (docs : List RetrievedDocument)
    (intent : Option String) (config : RerankerPartialConfig) :
    ((rerankDocuments lg q docs intent config).map (fun d => d.metadata.fileName)).Nodup ∧
    ∀ d ∈ rerankDocuments lg q docs intent config,
      (sortByFinalScore (scoreDocuments lg (mergeConfig config).semanticWeight
        (mergeConfig config).keywordWeight q docs 0)).find?
        (fun y => y.metadata.fileName == d.metadata.fileName) = some d := by
  have hsub := rerankDocuments_sublist_ranked lg q docs intent config
  constructor
  · exact List.Nodup.sublist (hsub.map _) (dedupByFile_names _ []).1
  · intro d hd
    exact (mem_dedupByFile _ [] d (hsub.subset hd)).2

set_option maxRecDepth 10000 in
/-- C3 witness: in the two-document instance, the first output document is
the first occurrence of its file in the sorted list. -/
theorem claimC3_dedup_witness :
    (sortByFinalScore (scoreDocuments log10Floor (mergeConfig {}).semanticWeight
      (mergeConfig {}).keywordWeight "" twoDocs 0)).find?
      (fun y => y.metadata.fileName == twoRanked1.metadata.fileName) = some twoRanked1 :=
  (claimC3_dedup log10Floor "" twoDocs none {}).2 twoRanked1 (by decide)

/-- C4: the reranker output is sorted in non-increasing order of
finalScore. -/
theorem claimC4_sorted (lg : ℕ → ℚ) (q : String) (docs : List RetrievedDocument)
    (intent : Option String) (config : RerankerPartialConfig) :
    List.Sorted (fun a b : RankedDocument => b.finalScore ≤ a.finalScore)
      (rerankDocuments lg q docs intent config) := by
  have h1 := sortByFinalScore_sorted (scoreDocuments lg (mergeConfig config).semanticWeight
    (mergeConfig config).keywordWeight q docs 0)
  have h2 := (rerankDocuments_sublist_ranked lg q docs intent config).trans
    (dedupByFile_sublist _ [])
  exact List.Pairwise.sublist h2 h1

/-- C5: intent filtering runs only for a present, non-empty intent other
than unknown whose lowercased form maps to a non-empty keyword set;
when it runs it keeps exactly the documents containing a mapped keyword,
unless no document matches, in which case it is skipped; it never maps a
non-empty list to the empty list. -/
theorem claimC5_intent_filter (s : String) (l : List RankedDocument) :
    (intentFilterStep none l = l) ∧
    (intentFilterStep (some "") l = l) ∧
    (intentFilterStep (some "unknown") l = l) ∧
    (getIntentKeywords (lowerStr s) = [] → intentFilterStep (some s) l = l) ∧
    (s ≠ "" → s ≠ "unknown" → getIntentKeywords (lowerStr s) ≠ [] →
      intentFilterStep (some s) l =
        if 1 ≤ (l.filter (docMatchesIntent (getIntentKeywords (lowerStr s)))).length then
          l.filter (docMatchesIntent (getIntentKeywords (lowerStr s)))
        else l) ∧
    (l ≠ [] → intentFilterStep (some s) l ≠ []) := by
  refine ⟨by simp [intentFilterStep], by simp [intentFilterStep], by simp [intentFilterStep],
    ?_, ?_, ?_⟩
  · intro h
    simp [intentFilterStep, h]
  · intro h1 h2 h3
    simp only [intentFilterStep]
    rw [if_pos ⟨h1, h2⟩, if_pos (by simpa using fun hEq => h3 (List.length_eq_zero.mp hEq))]
  · intro hl
    simp only [intentFilterStep]
    split
    · split
      · split
        · rename_i hlen
          intro hEq
          rw [hEq] at hlen
          simp at hlen
        · exact hl
      · exact hl
    · exact hl

/-- C5 witness: the intent pricing maps to a non-empty keyword set, is
applied according to the match count, and preserves non-emptiness. -/
theorem claimC5_intent_filter_witness :
    getIntentKeywords (lowerStr "pricing") ≠ [] ∧
    intentFilterStep (some "pricing") [twoRanked1] =
      (if 1 ≤ ([twoRanked1].filter
          (docMatchesIntent (getIntentKeywords (lowerStr "pricing")))).length then
        [twoRanked1].filter (docMatchesIntent (getIntentKeywords (lowerStr "pricing")))
      else [twoRanked1]) ∧
    intentFilterStep (some "pricing") [twoRanked1] ≠ [] := by
  have h := claimC5_intent_filter "pricing" [twoRanked1]
  exact ⟨by decide, h.2.2.2.2.1 (by decide) (by decide) (by decide), h.2.2.2.2.2 (by decide)⟩

/-- C10: the reranker output depends on the configuration only through the
two weights; the initialRetrievalCount and finalResultCount fields never
change it, and the length cap is the constant 5. -/
theorem claimC10_config_independence (lg : ℕ → ℚ) (q : String)
    (docs : List RetrievedDocument) (intent : Option String)
    (c1 c2 : RerankerPartialConfig)
    (hsw : (mergeConfig c1).semanticWeight = (mergeConfig c2).semanticWeight)
    (hkw : (mergeConfig c1).keywordWeight = (mergeConfig c2).keywordWeight) :
    rerankDocuments lg q docs intent c1 = rerankDocuments lg q docs intent c2 ∧
    (rerankDocuments lg q docs intent c1).length ≤ 5 := by
  refine ⟨?_, rerankDocuments_length_le lg q docs intent c1⟩
  simp only [rerankDocuments]
  rw [hsw, hkw]

/-- C10 witness: overriding the two count fields leaves the output of a
concrete call unchanged. -/
theorem claimC10_config_independence_witness :
    rerankDocuments log10Floor "" twoDocs none {} =
      rerankDocuments log10Floor "" twoDocs none
        { initialRetrievalCount := some 3, finalResultCount := some 1 } :=
  (claimC10_config_independence log10Floor "" twoDocs none _ _ (by decide) (by decide)).1

/-- The priority loop computes its closed forms. -/
theorem keywordLoop_spec (lg : ℕ → ℚ) (docLower : List Char) (ks : List WeightedKeyword) :
    ∀ t m ms, keywordLoop lg docLower ks (t, m, ms) =
      (t + priorityTotal lg docLower ks, m + priorityMaxPossible ks,
        ms ++ priorityMatchList docLower ks) := by
  induction ks with
  | nil =>
    intro t m ms
    simp [keywordLoop, priorityTotal, priorityMaxPossible, priorityMatchList]
  | cons k ks ih =>
    intro t m ms
    simp only [keywordLoop]
    by_cases h : 0 < countMatches k.keyword.toList docLower
    · rw [if_pos h, ih]
      have hfilter : List.filter (fun x => decide (0 < countMatches x.keyword.toList docLower))
          (k :: ks) =
          k :: List.filter (fun x => decide (0 < countMatches x.keyword.toList docLower)) ks :=
        List.filter_cons_of_pos (by simpa using h)
      simp only [priorityTotal, priorityMaxPossible, priorityMatchList, keywordCount, hfilter,
        List.map_cons, List.sum_cons, Prod.mk.injEq, List.append_assoc, List.singleton_append]
      refine ⟨by rw [add_assoc], by rw [add_assoc], trivial⟩
    · rw [if_neg h, ih]
      have hfilter : List.filter (fun x => decide (0 < countMatches x.keyword.toList docLower))
          (k :: ks) =
          List.filter (fun x => decide (0 < countMatches x.keyword.toList docLower)) ks :=
        List.filter_cons_of_neg (by simpa using h)
      simp only [priorityTotal, priorityMaxPossible, priorityMatchList, keywordCount, hfilter,
        List.map_cons, List.sum_cons, Prod.mk.injEq]
      refine ⟨trivial, by rw [add_assoc], trivial⟩

/-- The extra-words loop computes its closed forms. -/
theorem extraWordsLoop_spec (qk : List WeightedKeyword) (docLower : List Char)
    (ws : List (List Char)) :
    ∀ t m, extraWordsLoop qk docLower ws (t, m) =
      (t + (((cleanWordsOf qk ws).filter (fun c => hasSubList c docLower)).length : ℚ) * 0.5,
        m + ((cleanWordsOf qk ws).length : ℚ)) := by
  induction ws with
  | nil => intro t m; simp [extraWordsLoop, cleanWordsOf]
  | cons w ws ih =>
    intro t m
    simp only [extraWordsLoop]
    by_cases h : 3 ≤ (w.filter isKeptChar).length ∧
        ¬ qk.any (fun k => k.keyword == String.mk (w.filter isKeptChar))
    · rw [if_pos h, ih]
      have hclean : cleanWordsOf qk (w :: ws) = (w.filter isKeptChar) :: cleanWordsOf qk ws := by
        simp only [cleanWordsOf, List.map_cons]
        exact List.filter_cons_of_pos (by simpa using h)
      by_cases hc : hasSubList (w.filter isKeptChar) docLower
      · have hF : List.filter (fun c => hasSubList c docLower)
            ((w.filter isKeptChar) :: cleanWordsOf qk ws) =
            (w.filter isKeptChar) ::
              List.filter (fun c => hasSubList c docLower) (cleanWordsOf qk ws) :=
          List.filter_cons_of_pos (by simpa using hc)
        rw [if_pos hc]
        simp only [hclean, hF, List.length_cons, Prod.mk.injEq]
        constructor
        · push_cast
          ring
        · push_cast
          ring
      · have hF : List.filter (fun c => hasSubList c docLower)
            ((w.filter isKeptChar) :: cleanWordsOf qk ws) =
            List.filter (fun c => hasSubList c docLower) (cleanWordsOf qk ws) :=
          List.filter_cons_of_neg (by simpa using hc)
        rw [if_neg hc]
        simp only [hclean, hF, List.length_cons, Prod.mk.injEq]
        constructor
        · ring_nf
        · push_cast
          ring
    · rw [if_neg h, ih]
      have hclean : cleanWordsOf qk (w :: ws) = cleanWordsOf qk ws := by
        simp only [cleanWordsOf, List.map_cons]
        exact List.filter_cons_of_neg (by simpa using h)
      rw [hclean]

/-- Keywords collected by the single-word loop all have weight above 1. -/
theorem extractSingleWords_weight (ws : List (List Char)) :
    ∀ seen res, (∀ k ∈ res, 1 < k.weight) →
      ∀ k ∈ (extractSingleWords ws seen res).2, 1 < k.weight := by
  induction ws with
  | nil => intro seen res h k hk; exact h k hk
  | cons w ws ih =>
    intro seen res h
    simp only [extractSingleWords]
    split
    · split
      · rename_i hcond hw
        apply ih
        intro k hk
        rcases List.mem_append.mp hk with hk | hk
        · exact h k hk
        · simp only [List.mem_singleton] at hk
          subst hk
          exact hw
      · exact ih _ _ h
    · exact ih _ _ h

/-- Keywords collected by the inner multi-word loop keep the invariant when
the category weight is above 1. -/
theorem extractMultiKw_weight (textLower : String) (w : ℚ) (hw : 1 < w)
    (kws : List String) :
    ∀ seen res, (∀ k ∈ res, 1 < k.weight) →
      ∀ k ∈ (extractMultiKw textLower w kws seen res).2, 1 < k.weight := by
  induction kws with
  | nil => intro seen res h k hk; exact h k hk
  | cons kw kws ih =>
    intro seen res h
    simp only [extractMultiKw]
    split
    · apply ih
      intro k hk
      rcases List.mem_append.mp hk with hk | hk
      · exact h k hk
      · simp only [List.mem_singleton] at hk
        subst hk
        exact hw
    · exact ih _ _ h

/-- Keywords collected by the category loop keep the invariant. -/
theorem extractMultiCats_weight (textLower : String) (cats : List KeywordCategory) :
    ∀ seen res, (∀ cat ∈ cats, 1 < cat.weight) → (∀ k ∈ res, 1 < k.weight) →
      ∀ k ∈ (extractMultiCats textLower cats seen res).2, 1 < k.weight := by
  induction cats with
  | nil => intro seen res _ h k hk; exact h k hk
  | cons cat cats ih =>
    intro seen res hcats h
    simp only [extractMultiCats]
    exact ih _ _ (fun c hc => hcats c (List.mem_cons_of_mem _ hc))
      (extractMultiKw_weight textLower cat.weight (hcats cat (List.mem_cons_self _ _))
        cat.keywords seen res h)

/-- Every category weight of the table exceeds 1. -/
theorem categories_weight_gt_one : ∀ cat ∈ KEYWORD_CATEGORIES, 1 < cat.weight := by decide

/-- Every extracted query keyword has weight above 1 (hence nonnegative). -/
theorem extract_weight_gt_one (text : String) :
    ∀ k ∈ extractKeywordsWithWeights text, 1 < k.weight := by
  simp only [extractKeywordsWithWeights]
  exact extractMultiCats_weight (lowerStr text) KEYWORD_CATEGORIES _ _
    categories_weight_gt_one
    (extractSingleWords_weight (splitWs (lowerStr text).toList) [] [] (by simp))

/-- Characterization of calculateKeywordScore through the closed forms. -/
theorem calculateKeywordScore_eq (lg : ℕ → ℚ) (query doc : String) :
    calculateKeywordScore lg query doc =
      ⟨if 0 < keywordMaxPossible query then
          min (keywordTotalScore lg query doc / keywordMaxPossible query) 1
        else 0,
        priorityMatchList (lowerStr doc).toList (extractKeywordsWithWeights query)⟩ := by
  simp only [calculateKeywordScore, keywordLoop_spec, extraWordsLoop_spec, zero_add,
    List.nil_append]
  simp only [keywordTotalScore, keywordMaxPossible, cleanedExtraWords, extraQueryWords]

/-- The maximum possible score is nonnegative. -/
theorem keywordMaxPossible_nonneg (query : String) : 0 ≤ keywordMaxPossible query := by
  refine add_nonneg (List.sum_nonneg ?_) (Nat.cast_nonneg _)
  intro x hx
  obtain ⟨k, hk, rfl⟩ := List.mem_map.mp hx
  exact le_of_lt (lt_trans zero_lt_one (extract_weight_gt_one query k hk))

/-- The total score is nonnegative when log10 is nonnegative. -/
theorem keywordTotalScore_nonneg (lg : ℕ → ℚ) (hlg : ∀ n : ℕ, 0 ≤ lg n)
    (query doc : String) : 0 ≤ keywordTotalScore lg query doc := by
  refine add_nonneg (List.sum_nonneg ?_) (mul_nonneg (Nat.cast_nonneg _) (by norm_num))
  intro x hx
  obtain ⟨k, hk, rfl⟩ := List.mem_map.mp hx
  refine mul_nonneg ?_ (le_min (add_nonneg zero_le_one (hlg _)) (by norm_num))
  exact le_of_lt (lt_trans zero_lt_one
    (extract_weight_gt_one query k (List.mem_of_mem_filter hk)))

/-- C6 (amended): the keyword score is min(total/maxPossible, 1), or 0 when
maxPossible is 0, lies in the unit interval, and records exactly the present
priority keywords; a present priority keyword contributes
weight * min(1 + log10 count, 2) and every OCCURRENCE of a qualifying
non-priority query word (not deduplicated) adds 1.0 to maxPossible and 0.5
to the total when the document contains it. -/
theorem claimC6_keyword_score (lg : ℕ → ℚ) (hlg : ∀ n : ℕ, 0 ≤ lg n) (query doc : String) :
    (calculateKeywordScore lg query doc).score =
      (if keywordMaxPossible query = 0 then 0
       else min (keywordTotalScore lg query doc / keywordMaxPossible query) 1) ∧
    0 ≤ (calculateKeywordScore lg query doc).score ∧
    (calculateKeywordScore lg query doc).score ≤ 1 ∧
    (calculateKeywordScore lg query doc).matchList =
      priorityMatchList (lowerStr doc).toList (extractKeywordsWithWeights query) := by
  have hM := keywordMaxPossible_nonneg query
  have hT := keywordTotalScore_nonneg lg hlg query doc
  rw [calculateKeywordScore_eq lg query doc]
  by_cases h0 : keywordMaxPossible query = 0
  · have hnlt : ¬ 0 < keywordMaxPossible query := by rw [h0]; exact lt_irrefl 0
    exact ⟨by simp [h0, hnlt], by simp [hnlt], by simp [hnlt], rfl⟩
  · have hpos : 0 < keywordMaxPossible query := lt_of_le_of_ne hM (Ne.symm h0)
    refine ⟨by simp [h0, hpos], ?_, ?_, rfl⟩
    · simp only [if_pos hpos]
      exact le_min (div_nonneg hT hM) zero_le_one
    · simp only [if_pos hpos]
      exact min_le_right _ _

set_option maxRecDepth 10000 in
/-- C6 counterexample: on the query prix foo foo, whose non-priority word
foo repeats, against the document foo, the code scores 1/4 while the claim
wording (each DISTINCT non-priority word counted once) predicts 1/6. -/
theorem claimC6_counterexample :
    (calculateKeywordScore log10Floor "prix foo foo" "foo").score = 1/4 ∧
    claimKeywordScoreDistinct log10Floor "prix foo foo" "foo" = 1/6 ∧
    (calculateKeywordScore log10Floor "prix foo foo" "foo").score ≠
      claimKeywordScoreDistinct log10Floor "prix foo foo" "foo" :=
  ⟨by decide, by decide, by decide⟩

/-- C6 witness: the nonnegativity hypothesis on log10 holds of the concrete
stand-in, and the score of a concrete call lies in the unit interval. -/
theorem claimC6_keyword_score_witness :
    (∀ n : ℕ, 0 ≤ log10Floor n) ∧
    0 ≤ (calculateKeywordScore log10Floor "prix" "le prix du pack").score ∧
    (calculateKeywordScore log10Floor "prix" "le prix du pack").score ≤ 1 := by
  have hlg : ∀ n : ℕ, 0 ≤ log10Floor n := fun n => by
    unfold log10Floor
    exact_mod_cast Nat.zero_le _
  have h := claimC6_keyword_score log10Floor hlg "prix" "le prix du pack"
  exact ⟨hlg, h.2.1, h.2.2.1⟩

/-- On equal arguments the three accumulators of dotAcc coincide. -/
theorem dotAcc_self_eq (a : List ℝ) :
    (dotAcc a a).1 = (dotAcc a a).2.1 ∧ (dotAcc a a).2.2 = (dotAcc a a).2.1 := by
  induction a with
  | nil => simp [dotAcc]
  | cons x xs ih =>
    simp only [dotAcc]
    exact ⟨by rw [ih.1], by rw [ih.2]⟩

/-- The first norm accumulator is a sum of squares, hence nonnegative. -/
theorem dotAcc_normA_nonneg (a : List ℝ) : ∀ b, 0 ≤ (dotAcc a b).2.1 := by
  induction a with
  | nil => intro b; cases b <;> simp [dotAcc]
  | cons x xs ih =>
    intro b
    cases b with
    | nil => simp [dotAcc]
    | cons y ys => exact add_nonneg (mul_self_nonneg x) (ih ys)

/-- A nonzero entry makes the self norm accumulator positive. -/
theorem dotAcc_self_pos (a : List ℝ) (h : ∃ x ∈ a, x ≠ 0) : 0 < (dotAcc a a).2.1 := by
  induction a with
  | nil => simp at h
  | cons x xs ih =>
    simp only [dotAcc]
    rcases h with ⟨y, hy, hy0⟩
    rcases List.mem_cons.mp hy with rfl | hy
    · exact add_pos_of_pos_of_nonneg (mul_self_pos.mpr hy0) (dotAcc_normA_nonneg xs xs)
    · exact add_pos_of_nonneg_of_pos (mul_self_nonneg x) (ih ⟨y, hy, hy0⟩)

/-- Swapping the vectors swaps the two norm accumulators and keeps the dot
product. -/
theorem dotAcc_comm (a : List ℝ) : ∀ b, dotAcc b a =
    ((dotAcc a b).1, (dotAcc a b).2.2, (dotAcc a b).2.1) := by
  induction a with
  | nil => intro b; cases b <;> simp [dotAcc]
  | cons x xs ih =>
    intro b
    cases b with
    | nil => simp [dotAcc]
    | cons y ys =>
      simp only [dotAcc, ih ys]
      rw [mul_comm y x]

/-- The norm accumulator of an all-zero vector vanishes. -/
theorem dotAcc_normA_zero (a : List ℝ) (h : ∀ x ∈ a, x = 0) :
    ∀ b, (dotAcc a b).2.1 = 0 := by
  induction a with
  | nil => intro b; cases b <;> simp [dotAcc]
  | cons x xs ih =>
    intro b
    cases b with
    | nil => simp [dotAcc]
    | cons y ys =>
      have hx : x = 0 := h x (List.mem_cons_self _ _)
      simp only [dotAcc, hx, ih (fun z hz => h z (List.mem_cons_of_mem _ hz)) ys]
      ring

/-- Cosine similarity is symmetric. -/
theorem cosineSimilarity_comm (a b : List ℝ) :
    cosineSimilarity a b = cosineSimilarity b a := by
  simp only [cosineSimilarity]
  by_cases h : a.length = b.length
  · have h1 : ¬(a.length ≠ b.length) := by simp [h]
    have h2 : ¬(b.length ≠ a.length) := by simp [h]
    rw [if_neg h1, if_neg h2, dotAcc_comm a b]
    dsimp only
    rw [mul_comm (Real.sqrt (dotAcc a b).2.2) (Real.sqrt (dotAcc a b).2.1)]
  · rw [if_pos h, if_pos (fun hEq => h hEq.symm)]

/-- Cosine similarity of a vector with a nonzero entry with itself is 1. -/
theorem cosineSimilarity_self (a : List ℝ) (h : ∃ x ∈ a, x ≠ 0) :
    cosineSimilarity a a = 1 := by
  simp only [cosineSimilarity]
  have hlen : ¬(a.length ≠ a.length) := by simp
  rw [if_neg hlen]
  obtain ⟨h1, h2⟩ := dotAcc_self_eq a
  have hpos : 0 < (dotAcc a a).2.1 := dotAcc_self_pos a h
  rw [h2, Real.mul_self_sqrt (le_of_lt hpos), if_neg (ne_of_gt hpos), h1,
    div_self (ne_of_gt hpos)]

/-- Cosine similarity of vectors of different lengths is 0, not an error. -/
theorem cosineSimilarity_length_ne (a b : List ℝ) (h : a.length ≠ b.length) :
    cosineSimilarity a b = 0 := by
  simp only [cosineSimilarity]
  rw [if_pos h]

/-- Cosine similarity with an all-zero left vector is 0. -/
theorem cosineSimilarity_zero_left (a b : List ℝ) (h : ∀ x ∈ a, x = 0) :
    cosineSimilarity a b = 0 := by
  simp only [cosineSimilarity]
  by_cases hl : a.length = b.length
  · have h1 : ¬(a.length ≠ b.length) := by simp [hl]
    rw [if_neg h1, dotAcc_normA_zero a h b, Real.sqrt_zero, zero_mul, if_pos rfl]
  · rw [if_pos hl]

/-- C8: the cosine similarity of the cache is symmetric, equals 1 on any
nonzero vector paired with itself, and returns 0 rather than failing on
mismatched lengths or zero vectors. -/
theorem claimC8_cosine (a b : List ℝ) :
    cosineSimilarity a b = cosineSimilarity b a ∧
    ((∃ x ∈ a, x ≠ 0) → cosineSimilarity a a = 1) ∧
    (a.length ≠ b.length → cosineSimilarity a b = 0) ∧
    ((∀ x ∈ a, x = 0) → cosineSimilarity a b = 0) ∧
    ((∀ x ∈ b, x = 0) → cosineSimilarity a b = 0) :=
  ⟨cosineSimilarity_comm a b, cosineSimilarity_self a, cosineSimilarity_length_ne a b,
    cosineSimilarity_zero_left a b,
    fun h => (cosineSimilarity_comm a b).trans (cosineSimilarity_zero_left b a h)⟩

/-- C8 witness: the similarity of (3, 4) with itself is 1, and vectors of
lengths 1 and 2 score 0. -/
theorem claimC8_cosine_witness :
    cosineSimilarity [(3 : ℝ), 4] [3, 4] = 1 ∧
    cosineSimilarity [(1 : ℝ)] [1, 2] = 0 :=
  ⟨(claimC8_cosine [(3 : ℝ), 4] [3, 4]).2.1 ⟨3, by simp, by norm_num⟩,
    (claimC8_cosine [(1 : ℝ)] [1, 2]).2.2.1 (by simp)⟩

/-- Once a best match exists the fold never forgets it. -/
theorem bestSimFold_some_ne_none (q : List ℝ) (l : List (String × List ℝ)) :
    ∀ p, bestSimFold q l (some p) ≠ none := by
  induction l with
  | nil => intro p h; exact Option.noConfusion h
  | cons e rest ih =>
    intro p
    simp only [bestSimFold]
    split
    · split
      · exact ih _
      · exact ih _
    · exact ih _

/-- A fold returning none started from none and saw only similarities below
the threshold. -/
theorem bestSimFold_eq_none (q : List ℝ) (l : List (String × List ℝ)) :
    ∀ acc, bestSimFold q l acc = none →
      acc = none ∧ ∀ p ∈ l, cosineSimilarity q p.2 < 0.95 := by
  induction l with
  | nil => intro acc h; exact ⟨h, by simp⟩
  | cons e rest ih =>
    intro acc h
    cases acc with
    | none =>
      simp only [bestSimFold] at h
      by_cases hs : SIMILARITY_THRESHOLD ≤ cosineSimilarity q e.2
      · rw [if_pos hs] at h
        exact absurd h (bestSimFold_some_ne_none q rest _)
      · rw [if_neg hs] at h
        obtain ⟨_, hrest⟩ := ih none h
        refine ⟨rfl, fun p hp => ?_⟩
        rcases List.mem_cons.mp hp with rfl | hp
        · exact not_le.mp hs
        · exact hrest p hp
    | some b =>
      simp only [bestSimFold] at h
      split at h
      · split at h <;> exact absurd h (bestSimFold_some_ne_none q rest _)
      · exact absurd h (bestSimFold_some_ne_none q rest _)

/-- When every similarity stays below the threshold the fold returns none. -/
theorem bestSimFold_none_of_all_lt (q : List ℝ) (l : List (String × List ℝ))
    (h : ∀ p ∈ l, cosineSimilarity q p.2 < 0.95) :
    bestSimFold q l none = none := by
  induction l with
  | nil => rfl
  | cons e rest ih =>
    simp only [bestSimFold]
    have hs : ¬ SIMILARITY_THRESHOLD ≤ cosineSimilarity q e.2 :=
      not_le.mpr (h e (List.mem_cons_self _ _))
    rw [if_neg hs]
    exact ih (fun p hp => h p (List.mem_cons_of_mem _ hp))

/-- Characterization of a successful fold: the reported similarity is at or
above the threshold, belongs to the accumulator or to some processed entry,
dominates every processed entry at or above the threshold, and dominates the
initial accumulator. -/
theorem bestSimFold_eq_some (q : List ℝ) (l : List (String × List ℝ)) :
    ∀ acc (b : String) (s : ℝ), (∀ p', acc = some p' → (0.95 : ℝ) ≤ p'.2) →
      bestSimFold q l acc = some (b, s) →
      (0.95 : ℝ) ≤ s ∧
      (acc = some (b, s) ∨ ∃ e, (b, e) ∈ l ∧ cosineSimilarity q e = s) ∧
      (∀ p ∈ l, (0.95 : ℝ) ≤ cosineSimilarity q p.2 → cosineSimilarity q p.2 ≤ s) ∧
      (∀ p', acc = some p' → p'.2 ≤ s) := by
  induction l with
  | nil =>
    intro acc b s hacc h
    simp only [bestSimFold] at h
    refine ⟨hacc _ h, Or.inl h, by simp, fun p' hp' => ?_⟩
    rw [h] at hp'
    have hp2 : p' = (b, s) := by injection hp' with he; exact he.symm
    rw [hp2]
  | cons e rest ih =>
    intro acc b s hacc h
    cases acc with
    | none =>
      simp only [bestSimFold] at h
      by_cases hs : SIMILARITY_THRESHOLD ≤ cosineSimilarity q e.2
      · rw [if_pos hs] at h
        have hacc2 : ∀ p', (some (e.1, cosineSimilarity q e.2) : Option (String × ℝ)) =
            some p' → (0.95 : ℝ) ≤ p'.2 := by
          intro p' hp'
          injection hp' with he
          rw [← he]
          exact hs
        obtain ⟨h1, h2, h3, h4⟩ := ih _ b s hacc2 h
        refine ⟨h1, ?_, ?_, by simp⟩
        · rcases h2 with h2 | ⟨ee, hee, hse⟩
          · injection h2 with h2
            refine Or.inr ⟨e.2, ?_, congrArg Prod.snd h2⟩
            have hb : b = e.1 := (congrArg Prod.fst h2).symm
            rw [hb, Prod.mk.eta]
            exact List.mem_cons_self _ _
          · exact Or.inr ⟨ee, List.mem_cons_of_mem _ hee, hse⟩
        · intro p hp hps
          rcases List.mem_cons.mp hp with rfl | hp
          · exact h4 _ rfl
          · exact h3 p hp hps
      · rw [if_neg hs] at h
        obtain ⟨h1, h2, h3, h4⟩ := ih none b s (by simp) h
        refine ⟨h1, ?_, ?_, by simp⟩
        · rcases h2 with h2 | ⟨ee, hee, hse⟩
          · exact absurd h2 (by simp)
          · exact Or.inr ⟨ee, List.mem_cons_of_mem _ hee, hse⟩
        · intro p hp hps
          rcases List.mem_cons.mp hp with rfl | hp
          · exact absurd hps hs
          · exact h3 p hp hps
    | some bb =>
      simp only [bestSimFold] at h
      by_cases hs : SIMILARITY_THRESHOLD ≤ cosineSimilarity q e.2
      · rw [if_pos hs] at h
        by_cases hlt : bb.2 < cosineSimilarity q e.2
        · rw [if_pos hlt] at h
          have hacc2 : ∀ p', (some (e.1, cosineSimilarity q e.2) : Option (String × ℝ)) =
              some p' → (0.95 : ℝ) ≤ p'.2 := by
            intro p' hp'
            injection hp' with he
            rw [← he]
            exact hs
          obtain ⟨h1, h2, h3, h4⟩ := ih _ b s hacc2 h
          refine ⟨h1, ?_, ?_, ?_⟩
          · rcases h2 with h2 | ⟨ee, hee, hse⟩
            · injection h2 with h2
              refine Or.inr ⟨e.2, ?_, congrArg Prod.snd h2⟩
              have hb : b = e.1 := (congrArg Prod.fst h2).symm
              rw [hb, Prod.mk.eta]
              exact List.mem_cons_self _ _
            · exact Or.inr ⟨ee, List.mem_cons_of_mem _ hee, hse⟩
          · intro p hp hps
            rcases List.mem_cons.mp hp with rfl | hp
            · exact h4 _ rfl
            · exact h3 p hp hps
          · intro p' hp'
            have hp2 : p' = bb := by injection hp' with he; exact he.symm
            rw [hp2]
            exact le_trans (le_of_lt hlt) (h4 _ rfl)
        · rw [if_neg hlt] at h
          have hacc2 : ∀ p', (some bb : Option (String × ℝ)) = some p' →
              (0.95 : ℝ) ≤ p'.2 := by
            intro p' hp'
            have hp2 : p' = bb := by injection hp' with he; exact he.symm
            rw [hp2]
            exact hacc bb rfl
          obtain ⟨h1, h2, h3, h4⟩ := ih _ b s hacc2 h
          refine ⟨h1, ?_, ?_, ?_⟩
          · rcases h2 with h2 | ⟨ee, hee, hse⟩
            · exact Or.inl h2
            · exact Or.inr ⟨ee, List.mem_cons_of_mem _ hee, hse⟩
          · intro p hp hps
            rcases List.mem_cons.mp hp with rfl | hp
            · exact le_trans (not_lt.mp hlt) (h4 _ rfl)
            · exact h3 p hp hps
          · intro p' hp'
            have hp2 : p' = bb := by injection hp' with he; exact he.symm
            rw [hp2]
            exact h4 _ rfl
      · rw [if_neg hs] at h
        obtain ⟨h1, h2, h3, h4⟩ := ih _ b s hacc h
        refine ⟨h1, ?_, ?_, h4⟩
        · rcases h2 with h2 | ⟨ee, hee, hse⟩
          · exact Or.inl h2
          · exact Or.inr ⟨ee, List.mem_cons_of_mem _ hee, hse⟩
        · intro p hp hps
          rcases List.mem_cons.mp hp with rfl | hp
          · exact absurd hps hs
          · exact h3 p hp hps

/-- The fold distributes over list append. -/
theorem bestSimFold_append (q : List ℝ) (l1 l2 : List (String × List ℝ)) :
    ∀ acc, bestSimFold q (l1 ++ l2) acc = bestSimFold q l2 (bestSimFold q l1 acc) := by
  induction l1 with
  | nil => intro acc; simp [bestSimFold]
  | cons e rest ih =>
    intro acc
    cases acc with
    | none =>
      simp only [List.cons_append, bestSimFold]
      split
      · exact ih _
      · exact ih _
    | some b =>
      simp only [List.cons_append, bestSimFold]
      split
      · split
        · exact ih _
        · exact ih _
      · exact ih _

/-- Lookup of the replaced key in the map branch of mapSet. -/
theorem mapSet_replace_lookup (k : String) (v : CachedQuery) :
    ∀ m : List (String × CachedQuery), (∃ p ∈ m, p.1 = k) →
      (m.map (fun p => if p.1 = k then (k, v) else p)).lookup k = some v := by
  intro m
  induction m with
  | nil => intro h; simp at h
  | cons p ps ih =>
    obtain ⟨p1, p2⟩ := p
    intro hex
    by_cases hp : p1 = k
    · have hhead : (if ((p1, p2) : String × CachedQuery).1 = k then (k, v) else (p1, p2)) =
          (k, v) := if_pos hp
      rw [List.map_cons, hhead]
      simp [List.lookup]
    · have hhead : (if ((p1, p2) : String × CachedQuery).1 = k then (k, v) else (p1, p2)) =
          (p1, p2) := if_neg hp
      rw [List.map_cons, hhead]
      have hex2 : ∃ q ∈ ps, q.1 = k := by
        rcases hex with ⟨r, hrm, hrk⟩
        rcases List.mem_cons.mp hrm with rfl | hrm
        · exact absurd hrk hp
        · exact ⟨r, hrm, hrk⟩
      have hk : (k == p1) = false := by
        simp only [beq_eq_false_iff_ne]
        exact fun hEq => hp hEq.symm
      simp only [List.lookup, hk]
      exact ih hex2

/-- Lookup of the fresh key in the append branch of mapSet. -/
theorem mapSet_append_lookup (k : String) (v : CachedQuery) :
    ∀ m : List (String × CachedQuery), (∀ p ∈ m, p.1 ≠ k) →
      (m ++ [(k, v)]).lookup k = some v := by
  intro m
  induction m with
  | nil => intro _; simp [List.lookup]
  | cons p ps ih =>
    obtain ⟨p1, p2⟩ := p
    intro hall
    have hp : p1 ≠ k := hall (p1, p2) (List.mem_cons_self _ _)
    have hk : (k == p1) = false := by
      simp only [beq_eq_false_iff_ne]
      exact fun hEq => hp hEq.symm
    simp only [List.cons_append, List.lookup, hk]
    exact ih (fun r hr => hall r (List.mem_cons_of_mem _ hr))

/-- Lookup of the key just set. -/
theorem mapSet_lookup_self (m : List (String × CachedQuery)) (k : String) (v : CachedQuery) :
    (mapSet m k v).lookup k = some v := by
  unfold mapSet
  split
  · rename_i h
    exact mapSet_replace_lookup k v m h
  · rename_i h
    push_neg at h
    exact mapSet_append_lookup k v m h

/-- In the map branch, lookup of a different key is unchanged. -/
theorem mapSet_replace_lookup_ne (k : String) (v : CachedQuery) (k' : String) (h : k' ≠ k) :
    ∀ m : List (String × CachedQuery),
      (m.map (fun p => if p.1 = k then (k, v) else p)).lookup k' = m.lookup k' := by
  intro m
  induction m with
  | nil => rfl
  | cons p ps ih =>
    obtain ⟨p1, p2⟩ := p
    by_cases hp : p1 = k
    · have hhead : (if ((p1, p2) : String × CachedQuery).1 = k then (k, v) else (p1, p2)) =
          (k, v) := if_pos hp
      rw [List.map_cons, hhead]
      have hk1 : (k' == k) = false := by
        simp only [beq_eq_false_iff_ne]
        exact h
      have hk2 : (k' == p1) = false := by
        simp only [beq_eq_false_iff_ne]
        exact fun hEq => h (hEq.trans hp)
      simp only [List.lookup, hk1, hk2]
      exact ih
    · have hhead : (if ((p1, p2) : String × CachedQuery).1 = k then (k, v) else (p1, p2)) =
          (p1, p2) := if_neg hp
      rw [List.map_cons, hhead]
      simp only [List.lookup]
      cases hk2 : (k' == p1) with
      | true => rfl
      | false => exact ih

/-- In the append branch, lookup of a different key is unchanged. -/
theorem mapSet_append_lookup_ne (k : String) (v : CachedQuery) (k' : String) (h : k' ≠ k) :
    ∀ m : List (String × CachedQuery), (m ++ [(k, v)]).lookup k' = m.lookup k' := by
  intro m
  induction m with
  | nil =>
    have hk : (k' == k) = false := by
      simp only [beq_eq_false_iff_ne]
      exact h
    simp [List.lookup, hk]
  | cons p ps ih =>
    obtain ⟨p1, p2⟩ := p
    simp only [List.cons_append, List.lookup]
    cases hk2 : (k' == p1) with
    | true => rfl
    | false => exact ih

/-- Lookup of a different key is unchanged by mapSet. -/
theorem mapSet_lookup_ne (m : List (String × CachedQuery)) (k : String) (v : CachedQuery)
    (k' : String) (h : k' ≠ k) : (mapSet m k v).lookup k' = m.lookup k' := by
  unfold mapSet
  split
  · exact mapSet_replace_lookup_ne k v k' h m
  · exact mapSet_append_lookup_ne k v k' h m

/-- The empty cache state is well-formed. -/
theorem CacheWF_empty : CacheWF ⟨[], []⟩ := by
  intro p hp
  simp at hp

/-- Adding an entry under a fresh id preserves well-formedness. -/
theorem CacheWF_addToCache (st : CacheState) (id : String) (now : ℕ) (ques : String)
    (emb : List ℝ) (results : List RankedDocument) (hwf : CacheWF st)
    (hfresh : ∀ p ∈ st.embeddingIndex, p.1 ≠ id) :
    CacheWF (addToCache st id now ques emb results) := by
  intro p hp
  simp only [addToCache] at hp ⊢
  rcases List.mem_append.mp hp with hp | hp
  · obtain ⟨c, hc, hce⟩ := hwf p hp
    refine ⟨c, ?_, hce⟩
    rw [mapSet_lookup_ne _ _ _ _ (hfresh p hp)]
    exact hc
  · simp only [List.mem_singleton] at hp
    subst hp
    exact ⟨_, mapSet_lookup_self _ _ _, rfl⟩

/-- C7: under the maintained cache invariant, checkCache returns an entry of
highest cosine similarity among those at or above 0.95, returns null
exactly when no stored embedding reaches 0.95, scores mismatched lengths 0
instead of failing, never returns an entry of similarity 0.5, and a call
right after addToCache with a nonzero embedding hits. -/
theorem claimC7_check_cache (st : CacheState) (q : List ℝ) (hwf : CacheWF st) :
    (∀ c, checkCache st q = some c →
      (∃ p ∈ st.embeddingIndex, st.queryCache.lookup p.1 = some c ∧ c.embedding = p.2) ∧
      (0.95 : ℝ) ≤ cosineSimilarity q c.embedding ∧
      (∀ p ∈ st.embeddingIndex, cosineSimilarity q p.2 ≤ cosineSimilarity q c.embedding) ∧
      cosineSimilarity q c.embedding ≠ 0.5) ∧
    (checkCache st q = none ↔ ∀ p ∈ st.embeddingIndex, cosineSimilarity q p.2 < 0.95) ∧
    (∀ a b : List ℝ, a.length ≠ b.length → cosineSimilarity a b = 0) ∧
    (∀ id now ques results, (∃ x ∈ q, x ≠ 0) →
      ∃ c, checkCache (addToCache st id now ques q results) q = some c) := by
  refine ⟨?_, ⟨?_, ?_⟩, fun a b => cosineSimilarity_length_ne a b, ?_⟩
  · intro c hc
    rcases hfold : bestSimFold q st.embeddingIndex none with _ | ⟨bid, s⟩
    · simp [checkCache, hfold] at hc
    · simp only [checkCache, hfold] at hc
      obtain ⟨h1, h2, h3, _⟩ := bestSimFold_eq_some q st.embeddingIndex none bid s (by simp) hfold
      rcases h2 with h2 | ⟨e, he, hse⟩
      · exact absurd h2 (by simp)
      · obtain ⟨c', hc', hce⟩ := hwf (bid, e) he
        rw [hc] at hc'
        have hcc : c = c' := by injection hc'
        subst hcc
        refine ⟨⟨(bid, e), he, hc, hce⟩, ?_, ?_, ?_⟩
        · rw [hce, hse]
          exact h1
        · intro p hp
          rw [hce, hse]
          rcases le_or_lt (0.95 : ℝ) (cosineSimilarity q p.2) with hge | hlt
          · exact h3 p hp hge
          · exact le_trans (le_of_lt hlt) h1
        · rw [hce, hse]
          intro hEq
          rw [hEq] at h1
          norm_num at h1
  · intro hnone p hp
    rcases hfold : bestSimFold q st.embeddingIndex none with _ | ⟨bid, s⟩
    · exact (bestSimFold_eq_none q _ none hfold).2 p hp
    · simp only [checkCache, hfold] at hnone
      obtain ⟨_, h2, _, _⟩ := bestSimFold_eq_some q st.embeddingIndex none bid s (by simp) hfold
      rcases h2 with h2 | ⟨e, he, _⟩
      · exact absurd h2 (by simp)
      · obtain ⟨c', hc', _⟩ := hwf (bid, e) he
        rw [hnone] at hc'
        exact absurd hc' (by simp)
  · intro hall
    simp only [checkCache, bestSimFold_none_of_all_lt q _ hall]
  · intro id now ques results hx
    have hsim : cosineSimilarity q q = 1 := cosineSimilarity_self q hx
    have hs : SIMILARITY_THRESHOLD ≤ cosineSimilarity q q := by
      rw [hsim]
      norm_num [SIMILARITY_THRESHOLD]
    have hfold : ∃ p, bestSimFold q (st.embeddingIndex ++ [(id, q)]) none = some p := by
      rw [bestSimFold_append]
      cases hacc0 : bestSimFold q st.embeddingIndex none with
      | none =>
        simp only [bestSimFold]
        rw [if_pos hs]
        exact ⟨_, rfl⟩
      | some b =>
        simp only [bestSimFold]
        rw [if_pos hs]
        split
        · exact ⟨_, rfl⟩
        · exact ⟨_, rfl⟩
    obtain ⟨⟨bid, s⟩, hfold⟩ := hfold
    obtain ⟨_, h2, _, _⟩ := bestSimFold_eq_some q _ none bid s (by simp) hfold
    by_cases hbid : bid = id
    · subst hbid
      refine ⟨{ question := ques, embedding := q, retrievalResults := results, timestamp := now }, ?_⟩
      simp only [checkCache, addToCache]
      rw [hfold]
      exact mapSet_lookup_self st.queryCache bid _
    · rcases h2 with h2 | ⟨e, he, _⟩
      · exact absurd h2 (by simp)
      · rcases List.mem_append.mp he with he | he
        · obtain ⟨c', hc', _⟩ := hwf (bid, e) he
          refine ⟨c', ?_⟩
          simp only [checkCache, addToCache]
          rw [hfold]
          show List.lookup bid (mapSet st.queryCache id
            { question := ques, embedding := q, retrievalResults := results,
              timestamp := now }) = some c'
          rw [mapSet_lookup_ne _ _ _ _ hbid]
          exact hc'
        · simp only [List.mem_singleton, Prod.mk.injEq] at he
          exact absurd he.1 hbid

set_option maxRecDepth 10000 in
/-- C7 witness: the empty state is well-formed and, right after inserting
the nonzero embedding (3, 4), checking with that embedding hits. -/
theorem claimC7_check_cache_witness :
    CacheWF ⟨[], []⟩ ∧
    (∃ c, checkCache (addToCache ⟨[], []⟩ "q1" 0 "question" [3, 4] []) [3, 4] = some c) := by
  have hwf : CacheWF ⟨[], []⟩ := CacheWF_empty
  have h := claimC7_check_cache ⟨[], []⟩ [3, 4] hwf
  exact ⟨hwf, h.2.2.2 "q1" 0 "question" [] ⟨3, by simp, by norm_num⟩⟩

/-- C9 (amended): the query refiner never fails: when the LLM call fails,
or the response has no span from an opening brace to a later closing brace
(the greedy regex match), or that span fails to parse as JSON, it returns
exactly the fallback object; on success it parses the span from the FIRST
opening brace through the LAST closing brace of the response, defaulting
refinedQuery to the original query, intent to unknown and entities to the
empty list; the original query is preserved on every path. -/
theorem claimC9_refine (parse : String → Option GhostJson) (query : String) :
    refineQueryWithGhostPrompt parse none query = fallbackRefined query ∧
    (∀ resp, jsonSpan resp = none →
      refineQueryWithGhostPrompt parse (some resp) query = fallbackRefined query) ∧
    (∀ resp block, jsonSpan resp = some block → parse block = none →
      refineQueryWithGhostPrompt parse (some resp) query = fallbackRefined query) ∧
    (∀ resp block j, jsonSpan resp = some block → parse block = some j →
      refineQueryWithGhostPrompt parse (some resp) query =
        { originalQuery := query
          refinedQuery := jsOrDefault j.refinedQuery query
          intent := jsOrDefault j.intent "unknown"
          entities := j.entities.getD []
          isAmbiguous := j.isAmbiguous }) ∧
    (∀ resp, (refineQueryWithGhostPrompt parse resp query).originalQuery = query) := by
  refine ⟨rfl, ?_, ?_, ?_, ?_⟩
  · intro resp h
    simp [refineQueryWithGhostPrompt, h]
  · intro resp block h hp
    simp [refineQueryWithGhostPrompt, h, hp]
  · intro resp block j h hp
    simp [refineQueryWithGhostPrompt, h, hp]
  · intro resp
    cases resp with
    | none => rfl
    | some r =>
      simp only [refineQueryWithGhostPrompt]
      rcases jsonSpan r with _ | block
      · rfl
      · dsimp only
        rcases parse block with _ | j
        · rfl
        · rfl

/-- C9 counterexample: on a response holding two top-level JSON objects the
greedy span is not the first balanced block; the code falls back while the
claim wording would parse the first block successfully. -/
theorem claimC9_counterexample :
    jsonSpan ghostResponseTwoBlocks ≠ firstBalancedBlock ghostResponseTwoBlocks ∧
    refineQueryWithGhostPrompt parseTwoBlocksModel (some ghostResponseTwoBlocks) "orig" =
      fallbackRefined "orig" ∧
    (firstBalancedBlock ghostResponseTwoBlocks).bind parseTwoBlocksModel =
      some { refinedQuery := some "r", intent := none, entities := none, isAmbiguous := false } :=
  ⟨by decide, by decide, by decide⟩

/-- C9 witness: a brace-free response makes the refiner return exactly the
fallback object. -/
theorem claimC9_refine_witness :
    jsonSpan "no braces here" = none ∧
    refineQueryWithGhostPrompt parseTwoBlocksModel (some "no braces here") "q" =
      fallbackRefined "q" := by
  have h := claimC9_refine parseTwoBlocksModel "q"
  have hs : jsonSpan "no braces here" = none := by decide
  exact ⟨hs, h.2.1 "no braces here" hs⟩
